import Mathlib

/-!
Verification development for the text-run layer of the edit-text editor
(`oatie/src/string.rs`): the shared range-viewed text run `DocString` and the
cursor splitter `DividedString`.

Modelling conventions:
* A Rust `String` is valid UTF-8, so the backing buffer (`Arc<String>`) is
  modelled as a `List Char` of Unicode scalar values.  Byte offsets into the
  buffer are modelled through `utf8Len`, the sum of the UTF-8 sizes of the
  characters, and the partial byte-slicing helpers `takeBytes` / `dropBytes`,
  which return `none` exactly when Rust slicing `&s[a..b]` would panic
  (offset out of bounds or not on a character boundary).
* Machine integers (`usize`, `isize`) are modelled as `Nat` / `Int` with
  checked arithmetic: an operation whose Rust counterpart panics (including a
  subtraction overflow under the overflow checks the crate is tested with)
  is modelled as returning `none`.
* `Arc` sharing is modelled by value equality of the carried buffer; the
  copy-on-write style maps are modelled by an executable record with one
  field per `Style` key, whose equality is exactly `HashMap` content
  equality.
-/

namespace EditText

/-- UTF-8 byte length of a character list (the byte length of the backing
`String` in the Rust source). -/
def utf8Len (l : List Char) : Nat :=
  (l.map Char.utf8Size).sum

/-- Take the characters occupying exactly the first `n` bytes of `l`;
`none` when `n` overruns the list or falls inside a multi-byte character
(where Rust slicing would panic). -/
def takeBytes : List Char → Nat → Option (List Char)
  | [], n => if n = 0 then some [] else none
  | c :: rest, n =>
    if n = 0 then some []
    else if c.utf8Size ≤ n then
      (takeBytes rest (n - c.utf8Size)).map (fun t => c :: t)
    else none

/-- Drop the characters occupying exactly the first `n` bytes of `l`;
`none` when `n` overruns the list or falls inside a multi-byte character. -/
def dropBytes : List Char → Nat → Option (List Char)
  | [], n => if n = 0 then some [] else none
  | c :: rest, n =>
    if n = 0 then some (c :: rest)
    else if c.utf8Size ≤ n then dropBytes rest (n - c.utf8Size)
    else none

/-- `enum Style` from the source. -/
inductive Style where
  | normie
  | selected
  | bold
  | italic
  | link
  deriving DecidableEq, Repr

/-- `StyleMap = HashMap<Style, Option<String>>`: one optional entry per key;
structural equality of this record is exactly content equality of the hash
map. -/
structure StyleMap where
  normie : Option (Option String)
  selected : Option (Option String)
  bold : Option (Option String)
  italic : Option (Option String)
  link : Option (Option String)
  deriving DecidableEq, Repr

/-- `StyleSet = HashSet<Style>`: one membership flag per key. -/
structure StyleSet where
  normie : Bool
  selected : Bool
  bold : Bool
  italic : Bool
  link : Bool
  deriving DecidableEq, Repr

def StyleMap.empty : StyleMap := ⟨none, none, none, none, none⟩

/-- One entry of `remove_styles`: drop the entry when its key is in the
set. -/
def removeEntry (member : Bool) (v : Option (Option String)) :
    Option (Option String) :=
  if member then none else v

/-- `drain().filter(|(x, _)| !styles.contains(x))` on the map content. -/
def StyleMap.remove (m : StyleMap) (s : StyleSet) : StyleMap :=
  ⟨removeEntry s.normie m.normie, removeEntry s.selected m.selected,
   removeEntry s.bold m.bold, removeEntry s.italic m.italic,
   removeEntry s.link m.link⟩

/-- One entry of `HashMap::extend`: an incoming entry overrides the old
one. -/
def overrideEntry (old new : Option (Option String)) :
    Option (Option String) :=
  match new with
  | some v => some v
  | none => old

/-- `new_styles.extend(styles.iter())` on the map content. -/
def StyleMap.extend (old new : StyleMap) : StyleMap :=
  ⟨overrideEntry old.normie new.normie,
   overrideEntry old.selected new.selected,
   overrideEntry old.bold new.bold,
   overrideEntry old.italic new.italic,
   overrideEntry old.link new.link⟩

/-- The sub-map of `m` at the keys of `s` (the entries `remove_styles s`
removes, with their original payloads). -/
def StyleMap.restrict (m : StyleMap) (s : StyleSet) : StyleMap :=
  ⟨if s.normie then m.normie else none,
   if s.selected then m.selected else none,
   if s.bold then m.bold else none,
   if s.italic then m.italic else none,
   if s.link then m.link else none⟩

/-- `DocString(Arc<String>, Option<Range<usize>>, Option<Arc<StyleMap>>)`:
`buf` is field `.0` (the shared backing buffer), `range` is field `.1`
(the optional byte view range, as a `(start, end)` pair), `styles` is
field `.2`. -/
structure DocString where
  buf : List Char
  range : Option (Nat × Nat)
  styles : Option StyleMap
  deriving DecidableEq, Repr

/-- `DocString::from_str` / `from_string`. -/
def fromStr (l : List Char) : DocString := ⟨l, none, none⟩

/-- `DocString::from_str_styled` / `from_string_styled`. -/
def fromStrStyled (l : List Char) (m : StyleMap) : DocString :=
  ⟨l, none, some m⟩

/-- `DocString::as_str`: the visible characters, `none` where the Rust
slice `&self.0[range]` would panic (inverted range, out of bounds, or a
bound inside a multi-byte character). -/
def asStr (r : DocString) : Option (List Char) :=
  match r.range with
  | none => some r.buf
  | some (s, e) =>
    if s ≤ e then
      match dropBytes r.buf s with
      | none => none
      | some t => takeBytes t (e - s)
    else none

/-- `DocString::char_len`: number of Unicode scalar values of the visible
text. -/
def charLen (r : DocString) : Option Nat :=
  (asStr r).map List.length

/-- `DocString::slice_inner(s, b)`: scan `b` code points from the start of
`s` (saturating at the end, as `next_code_point` returns `None` there) and
report the byte offset reached. -/
def sliceInner (s : List Char) (b : Nat) : Nat :=
  utf8Len (s.take b)

/-- Effective start byte of the view (`start` in `split_at`). -/
def startOf (r : DocString) : Nat :=
  match r.range with
  | some (s, _) => s
  | none => 0

/-- Effective end byte of the view (`end` in `split_at`: `self.0.len()`
when no range is present). -/
def endOf (r : DocString) : Nat :=
  match r.range with
  | some (_, e) => e
  | none => utf8Len r.buf

/-- `DocString::split_at(char_boundary)`: `none` exactly when the slice
`&self.0[start..]` would panic (view start off a character boundary). -/
def splitAt (r : DocString) (charBoundary : Nat) :
    Option (DocString × DocString) :=
  match dropBytes r.buf (startOf r) with
  | none => none
  | some tail =>
    let byteIndex := sliceInner tail charBoundary
    some (⟨r.buf, some (startOf r, startOf r + byteIndex), r.styles⟩,
          ⟨r.buf, some (startOf r + byteIndex, endOf r), r.styles⟩)

/-- `DocString::remove_styles`. -/
def removeStyles (r : DocString) (s : StyleSet) : DocString :=
  match r.styles with
  | some m => { r with styles := some (m.remove s) }
  | none => r

/-- `DocString::extend_styles`. -/
def extendStyles (r : DocString) (m : StyleMap) : DocString :=
  match r.styles with
  | some old => { r with styles := some (old.extend m) }
  | none => { r with styles := some m }

/-- `PartialEq for DocString`: compare visible text only; `none` where
either `as_str` panics. -/
def docEq (a b : DocString) : Option Bool :=
  match asStr a, asStr b with
  | some x, some y => some (decide (x = y))
  | _, _ => none

/-- The serde value a `DocString` encodes to: a bare string, or the
two-element sequence `[text, styles]`. -/
inductive WireValue where
  | str : List Char → WireValue
  | seq : List Char → StyleMap → WireValue
  deriving DecidableEq, Repr

/-- `Serialize for DocString`: dual-mode encoding (`none` where `as_str`
panics). -/
def serializeDoc (r : DocString) : Option WireValue :=
  match asStr r with
  | none => none
  | some v =>
    match r.styles with
    | some m => some (.seq v m)
    | none => some (.str v)

/-- `Deserialize for DocString`: a bare string becomes a styleless run, a
two-element sequence a styled run. -/
def deserializeDoc (w : WireValue) : DocString :=
  match w with
  | .str v => fromStr v
  | .seq v m => fromStrStyled v m

/-- `struct DividedString`. -/
structure DividedString where
  originalRange : Nat × Nat
  leftString : DocString
  rightString : DocString
  index : Nat
  deriving DecidableEq, Repr

/-- `Range<usize>::len()`: `end - start`, and `0` for an inverted range. -/
def rangeLen (p : Nat × Nat) : Nat := p.2 - p.1

/-- `DividedString::new(input, index)`: `none` where the constructor
panics.  Note `index > char_len - 1` is checked `usize` arithmetic: when
`char_len = 0` the subtraction itself overflows and panics (the behaviour
under the overflow checks the crate is tested with), so construction fails
for every index on an empty run. -/
def dividedNew (input : DocString) (index : Nat) : Option DividedString :=
  match charLen input with
  | none => none
  | some n =>
    if n = 0 then none
    else if n - 1 < index then none
    else some
      { originalRange :=
          match input.range with
          | some p => p
          | none => (0, n)
        leftString := input
        rightString := input
        index := index }

/-- `DividedString::seek(delta)`: `none` where it panics (cursor would move
below `0` or beyond `original_range.len()`). -/
def seek (d : DividedString) (delta : Int) : Option DividedString :=
  if (d.index : Int) + delta < 0 then none
  else
    let newIndex := ((d.index : Int) + delta).toNat
    if rangeLen d.originalRange < newIndex then none
    else some { d with index := newIndex }

/-- `DividedString::update_left`: writes
`[original.start + index, original.end)` into the left handle's range. -/
def updateLeft (d : DividedString) : DividedString :=
  { d with leftString :=
      { d.leftString with
        range := some (d.originalRange.1 + d.index, d.originalRange.2) } }

/-- `DividedString::update_right`: writes
`[original.start, original.start + index)` into the LEFT handle's range
(the aliasing in the source: `self.left_string.1 = Some(range)`). -/
def updateRight (d : DividedString) : DividedString :=
  { d with leftString :=
      { d.leftString with
        range := some (d.originalRange.1, d.originalRange.1 + d.index) } }

/-- `DividedString::left()`: the mutated splitter together with the
returned optional view. -/
def dividedLeft (d : DividedString) : DividedString × Option DocString :=
  if d.index = 0 then (d, none)
  else (updateLeft d, some (updateLeft d).leftString)

/-- `DividedString::right()`: the mutated splitter together with the
returned optional view. -/
def dividedRight (d : DividedString) : DividedString × Option DocString :=
  if rangeLen d.originalRange ≤ d.index then (d, none)
  else (updateRight d, some (updateRight d).rightString)

/-- `DividedString::destruct()`: `update_left(); update_right();` then
return both handles by value. -/
def destruct (d : DividedString) : DocString × DocString :=
  ((updateRight (updateLeft d)).leftString,
   (updateRight (updateLeft d)).rightString)

/-! ### Byte-offset lemmas -/

theorem utf8Len_nil : utf8Len [] = 0 := rfl

theorem utf8Len_cons (c : Char) (l : List Char) :
    utf8Len (c :: l) = c.utf8Size + utf8Len l := by
  simp [utf8Len]

theorem utf8Len_append (a b : List Char) :
    utf8Len (a ++ b) = utf8Len a + utf8Len b := by
  simp [utf8Len]

theorem takeBytes_zero (l : List Char) : takeBytes l 0 = some [] := by
  cases l <;> simp [takeBytes]

theorem dropBytes_zero (l : List Char) : dropBytes l 0 = some l := by
  cases l <;> simp [dropBytes]

theorem takeBytes_append (p q : List Char) :
    takeBytes (p ++ q) (utf8Len p) = some p := by
  induction p with
  | nil => simpa [utf8Len_nil] using takeBytes_zero q
  | cons c rest ih =>
    have hpos := Char.utf8Size_pos c
    have hne : c.utf8Size + utf8Len rest ≠ 0 := by omega
    have hle : c.utf8Size ≤ c.utf8Size + utf8Len rest := by omega
    show takeBytes (c :: (rest ++ q)) (utf8Len (c :: rest)) = some (c :: rest)
    rw [utf8Len_cons]
    simp only [takeBytes, if_neg hne, if_pos hle, Nat.add_sub_cancel_left,
      ih]
    rfl

theorem dropBytes_append (p q : List Char) :
    dropBytes (p ++ q) (utf8Len p) = some q := by
  induction p with
  | nil => simpa [utf8Len_nil] using dropBytes_zero q
  | cons c rest ih =>
    have hpos := Char.utf8Size_pos c
    have hne : c.utf8Size + utf8Len rest ≠ 0 := by omega
    have hle : c.utf8Size ≤ c.utf8Size + utf8Len rest := by omega
    show dropBytes (c :: (rest ++ q)) (utf8Len (c :: rest)) = some q
    rw [utf8Len_cons]
    simp only [dropBytes, if_neg hne, if_pos hle, Nat.add_sub_cancel_left, ih]

theorem takeBytes_some {l : List Char} {n : Nat} {v : List Char}
    (h : takeBytes l n = some v) :
    (∃ q, l = v ++ q) ∧ utf8Len v = n := by
  induction l generalizing n v with
  | nil =>
    by_cases hn : n = 0
    · subst hn
      rw [takeBytes_zero] at h
      cases h
      exact ⟨⟨[], rfl⟩, utf8Len_nil⟩
    · simp [takeBytes, if_neg hn] at h
  | cons c rest ih =>
    by_cases hn : n = 0
    · subst hn
      rw [takeBytes_zero] at h
      cases h
      exact ⟨⟨c :: rest, rfl⟩, utf8Len_nil⟩
    · simp only [takeBytes, if_neg hn] at h
      by_cases hle : c.utf8Size ≤ n
      · rw [if_pos hle] at h
        match hv : takeBytes rest (n - c.utf8Size) with
        | none => rw [hv] at h; simp at h
        | some v0 =>
          rw [hv] at h
          simp only [Option.map] at h
          rw [Option.some.injEq] at h
          obtain ⟨⟨q, hq⟩, hlen⟩ := ih hv
          refine ⟨⟨q, by rw [h.symm, hq, List.cons_append]⟩, ?_⟩
          rw [h.symm, utf8Len_cons, hlen]
          omega
      · rw [if_neg hle] at h; simp at h

theorem dropBytes_some {l : List Char} {n : Nat} {t : List Char}
    (h : dropBytes l n = some t) :
    ∃ p, l = p ++ t ∧ utf8Len p = n := by
  induction l generalizing n with
  | nil =>
    by_cases hn : n = 0
    · subst hn
      rw [dropBytes_zero] at h
      cases h
      exact ⟨[], rfl, utf8Len_nil⟩
    · simp [dropBytes, if_neg hn] at h
  | cons c rest ih =>
    by_cases hn : n = 0
    · subst hn
      rw [dropBytes_zero] at h
      cases h
      exact ⟨[], rfl, utf8Len_nil⟩
    · simp only [dropBytes, if_neg hn] at h
      by_cases hle : c.utf8Size ≤ n
      · rw [if_pos hle] at h
        obtain ⟨p, hp, hlen⟩ := ih h
        refine ⟨c :: p, by rw [hp, List.cons_append], ?_⟩
        rw [utf8Len_cons, hlen]
        omega
      · rw [if_neg hle] at h; simp at h

theorem length_le_utf8Len (l : List Char) : l.length ≤ utf8Len l := by
  induction l with
  | nil => simp [utf8Len_nil]
  | cons c rest ih =>
    have := Char.utf8Size_pos c
    rw [utf8Len_cons]
    simp only [List.length_cons]
    omega

/-- A run whose visible text is defined decomposes as: drop the bytes
before the view start, then take the bytes of the view. -/
theorem asStr_parts {r : DocString} {v : List Char} (h : asStr r = some v) :
    ∃ t, dropBytes r.buf (startOf r) = some t ∧
      takeBytes t (endOf r - startOf r) = some v ∧ startOf r ≤ endOf r := by
  obtain ⟨buf, rg, st⟩ := r
  match rg with
  | none =>
    simp only [asStr, Option.some.injEq] at h
    subst h
    refine ⟨buf, ?_, ?_, ?_⟩
    · simp only [startOf, dropBytes_zero]
    · simp only [startOf, endOf, Nat.sub_zero]
      have := takeBytes_append buf []
      rwa [List.append_nil] at this
    · exact Nat.zero_le _
  | some (s, e) =>
    simp only [asStr] at h
    by_cases hse : s ≤ e
    · rw [if_pos hse] at h
      simp only [startOf, endOf]
      rcases hd : dropBytes buf s with _ | t
      · simp only [hd] at h
        exact Option.noConfusion h
      · simp only [hd] at h
        exact ⟨t, rfl, h, hse⟩
    · rw [if_neg hse] at h; cases h

/-- Conversely, a view range cut out of an explicit buffer decomposition is
always visible. -/
theorem asStr_of_decomp (p v q : List Char) (st : Option StyleMap) :
    asStr ⟨p ++ v ++ q, some (utf8Len p, utf8Len p + utf8Len v), st⟩ =
      some v := by
  have hd : dropBytes (p ++ v ++ q) (utf8Len p) = some (v ++ q) := by
    have := dropBytes_append p (v ++ q)
    rwa [← List.append_assoc] at this
  simp only [asStr, if_pos (Nat.le_add_right (utf8Len p) (utf8Len v)), hd,
    Nat.add_sub_cancel_left, takeBytes_append]

theorem length_lt_utf8Len {l : List Char}
    (h : ∃ c ∈ l, 1 < c.utf8Size) : l.length < utf8Len l := by
  induction l with
  | nil => simp at h
  | cons c rest ih =>
    have hpos := Char.utf8Size_pos c
    have hrest := length_le_utf8Len rest
    rw [utf8Len_cons]
    simp only [List.length_cons]
    rcases h with ⟨d, hd, hsize⟩
    rcases List.mem_cons.mp hd with h1 | h2
    · subst h1; omega
    · have := ih ⟨d, h2, hsize⟩; omega

/-- Computation rule for `splitAt` once the view start is known to lie on a
character boundary. -/
theorem splitAt_eq {r : DocString} {t : List Char}
    (hd : dropBytes r.buf (startOf r) = some t) (k : Nat) :
    splitAt r k =
      some (⟨r.buf, some (startOf r, startOf r + utf8Len (t.take k)),
              r.styles⟩,
            ⟨r.buf, some (startOf r + utf8Len (t.take k), endOf r),
              r.styles⟩) := by
  simp only [splitAt, hd, sliceInner]

/-- C1: for every run `r` (any styles) and every character index
`k ≤ char_len r`, `split_at` returns a pair whose visible texts are the
first `k` characters and the rest (so they concatenate back to `r`'s
visible text), the left part has character length `k`, both parts share
`r`'s backing buffer, and both carry `r`'s styles; at `k = 0` and
`k = char_len r` it returns one empty and one full run instead of
failing. -/
theorem c1_split_at_spec (r : DocString) (v : List Char) (k : Nat)
    (hv : asStr r = some v) (hk : k ≤ v.length) :
    ∃ l r2, splitAt r k = some (l, r2) ∧
      asStr l = some (v.take k) ∧ asStr r2 = some (v.drop k) ∧
      v.take k ++ v.drop k = v ∧ charLen l = some k ∧
      l.buf = r.buf ∧ r2.buf = r.buf ∧
      l.styles = r.styles ∧ r2.styles = r.styles := by
  obtain ⟨t, hd, ht, hse⟩ := asStr_parts hv
  obtain ⟨⟨q, hq⟩, hlen⟩ := takeBytes_some ht
  obtain ⟨p, hp, hplen⟩ := dropBytes_some hd
  have htake : t.take k = v.take k := by
    rw [hq, List.take_append_eq_append_take, Nat.sub_eq_zero_of_le hk,
      List.take_zero, List.append_nil]
  have hvsplit : v.take k ++ v.drop k = v := List.take_append_drop k v
  have hbuf1 : r.buf = p ++ v.take k ++ (v.drop k ++ q) := by
    rw [hp, hq]
    conv_lhs => rw [← hvsplit]
    simp only [List.append_assoc]
  have hL : asStr ⟨r.buf, some (startOf r, startOf r + utf8Len (v.take k)),
      r.styles⟩ = some (v.take k) := by
    rw [hbuf1, ← hplen]
    exact asStr_of_decomp p (v.take k) (v.drop k ++ q) r.styles
  have hE : endOf r = startOf r + utf8Len v := by omega
  have hx : utf8Len v = utf8Len (v.take k) + utf8Len (v.drop k) := by
    conv_lhs => rw [← hvsplit]
    rw [utf8Len_append]
  have hR : asStr ⟨r.buf, some (startOf r + utf8Len (v.take k), endOf r),
      r.styles⟩ = some (v.drop k) := by
    have h2 := asStr_of_decomp (p ++ v.take k) (v.drop k) q r.styles
    rw [utf8Len_append, hplen] at h2
    have hb2 : p ++ v.take k ++ v.drop k ++ q = r.buf := by
      rw [hbuf1]
      simp only [List.append_assoc]
    rw [hb2] at h2
    have hend : startOf r + utf8Len (v.take k) + utf8Len (v.drop k) =
        endOf r := by omega
    rwa [hend] at h2
  refine ⟨⟨r.buf, some (startOf r, startOf r + utf8Len (v.take k)),
      r.styles⟩,
    ⟨r.buf, some (startOf r + utf8Len (v.take k), endOf r), r.styles⟩,
    ?_, hL, hR, hvsplit, ?_, rfl, rfl, rfl, rfl⟩
  · rw [splitAt_eq hd k, htake]
  · show ((asStr _).map List.length) = some k
    rw [hL]
    simp only [Option.map_some', List.length_take]
    rw [Nat.min_eq_left hk]

/-- Witness for C1: the run viewing the middle character of a three
character buffer, split at character index 1. -/
theorem c1_split_at_spec_witness :
    asStr ⟨['h', 'é', 'l'], some (1, 3), none⟩ = some (['é']) ∧
    1 ≤ (['é'] : List Char).length ∧
    (∃ l r2, splitAt ⟨['h', 'é', 'l'], some (1, 3), none⟩ 1 = some (l, r2) ∧
      asStr l = some (List.take 1 (['é'])) ∧
      asStr r2 = some (List.drop 1 (['é'])) ∧
      List.take 1 (['é']) ++ List.drop 1 (['é']) = ['é'] ∧
      charLen l = some 1 ∧
      l.buf = (⟨['h', 'é', 'l'], some (1, 3), none⟩ : DocString).buf ∧
      r2.buf = (⟨['h', 'é', 'l'], some (1, 3), none⟩ : DocString).buf ∧
      l.styles = (⟨['h', 'é', 'l'], some (1, 3), none⟩ : DocString).styles ∧
      r2.styles = (⟨['h', 'é', 'l'], some (1, 3), none⟩ : DocString).styles) :=
  ⟨by decide, by decide,
    c1_split_at_spec ⟨['h', 'é', 'l'], some (1, 3), none⟩ (['é']) 1
      (by decide) (by decide)⟩

theorem docEq_some {a b : DocString} {x y : List Char}
    (ha : asStr a = some x) (hb : asStr b = some y) :
    docEq a b = some (decide (x = y)) := by
  simp only [docEq, ha, hb]

theorem docEq_true {a b : DocString} (h : docEq a b = some true) :
    ∃ x, asStr a = some x ∧ asStr b = some x := by
  rcases ha : asStr a with _ | x <;> rcases hb : asStr b with _ | y <;>
    simp only [docEq, ha, hb] at h <;>
    try exact Option.noConfusion h
  rw [Option.some.injEq, decide_eq_true_eq] at h
  subst h
  exact ⟨x, rfl, rfl⟩

/-- C6: run equality holds exactly when the visible texts coincide,
independently of backing buffer, view-range representation, and styles;
on runs whose visible text is defined it is reflexive, symmetric and
transitive. -/
theorem c6_content_equality :
    (∀ r1 r2 v1 v2, asStr r1 = some v1 → asStr r2 = some v2 →
      (docEq r1 r2 = some true ↔ v1 = v2)) ∧
    (∀ r v, asStr r = some v → docEq r r = some true) ∧
    (∀ r1 r2, docEq r1 r2 = some true → docEq r2 r1 = some true) ∧
    (∀ r1 r2 r3, docEq r1 r2 = some true → docEq r2 r3 = some true →
      docEq r1 r3 = some true) := by
  refine ⟨?_, ?_, ?_, ?_⟩
  · intro r1 r2 v1 v2 h1 h2
    rw [docEq_some h1 h2]
    simp
  · intro r v h
    rw [docEq_some h h]
    simp
  · intro r1 r2 h
    obtain ⟨x, h1, h2⟩ := docEq_true h
    rw [docEq_some h2 h1]
    simp
  · intro r1 r2 r3 h h'
    obtain ⟨x, h1, h2⟩ := docEq_true h
    obtain ⟨y, h3, h4⟩ := docEq_true h'
    rw [h2] at h3
    cases h3
    rw [docEq_some h1 h4]
    simp

/-- Witness for C6: two runs over different backing buffers (one a full
buffer, one a styled sub-range view) with the same visible text compare
equal. -/
theorem c6_content_equality_witness :
    asStr (fromStr (['a', 'b'])) = some (['a', 'b']) ∧
    asStr ⟨['x', 'a', 'b'], some (1, 3), some StyleMap.empty⟩ =
      some (['a', 'b']) ∧
    docEq (fromStr (['a', 'b']))
      ⟨['x', 'a', 'b'], some (1, 3), some StyleMap.empty⟩ = some true :=
  ⟨by decide, by decide,
    (c6_content_equality.1 (fromStr (['a', 'b']))
      ⟨['x', 'a', 'b'], some (1, 3), some StyleMap.empty⟩
      (['a', 'b']) (['a', 'b']) (by decide) (by decide)).mpr rfl⟩

theorem overrideEntry_idem (a b : Option (Option String)) :
    overrideEntry (overrideEntry a b) b = overrideEntry a b := by
  cases b <;> rfl

theorem overrideEntry_self (a : Option (Option String)) :
    overrideEntry a a = a := by
  cases a <;> rfl

theorem extend_extend (old m : StyleMap) :
    (old.extend m).extend m = old.extend m := by
  cases old
  cases m
  simp [StyleMap.extend, overrideEntry_idem]

theorem extend_self (m : StyleMap) : m.extend m = m := by
  cases m
  simp [StyleMap.extend, overrideEntry_self]

theorem restoreEntry (b : Bool) (v : Option (Option String)) :
    overrideEntry (removeEntry b v) (if b then v else none) = v := by
  cases b <;> cases v <;> rfl

theorem remove_extend_restrict (m : StyleMap) (s : StyleSet) :
    (m.remove s).extend (m.restrict s) = m := by
  cases m
  cases s
  simp [StyleMap.remove, StyleMap.extend, StyleMap.restrict, restoreEntry]

/-- C7 (amended): `extend_styles` with the same map twice equals applying
it once, for every run; and for every run that HAS an attached style map,
`remove_styles` followed by `extend_styles` with the removed entries (the
attached map restricted to the removed key set) restores the run.  The
restoration half of the claim fails for styleless runs (see the
counterexample): there the sequence attaches a present-but-empty map. -/
theorem c7_styles_amended :
    (∀ (r : DocString) (m : StyleMap),
      extendStyles (extendStyles r m) m = extendStyles r m) ∧
    (∀ (r : DocString) (m : StyleMap) (s : StyleSet), r.styles = some m →
      extendStyles (removeStyles r s) (m.restrict s) = r) := by
  constructor
  · intro r m
    obtain ⟨buf, rg, st⟩ := r
    cases st with
    | none =>
      show extendStyles ⟨buf, rg, some m⟩ m = ⟨buf, rg, some m⟩
      simp [extendStyles, extend_self]
    | some old =>
      show extendStyles ⟨buf, rg, some (old.extend m)⟩ m =
        ⟨buf, rg, some (old.extend m)⟩
      simp [extendStyles, extend_extend]
  · intro r m s h
    obtain ⟨buf, rg, st⟩ := r
    simp only at h
    subst h
    show extendStyles ⟨buf, rg, some (m.remove s)⟩ (m.restrict s) =
      ⟨buf, rg, some m⟩
    simp [extendStyles, remove_extend_restrict]

/-- Counterexample to C7 as stated: for the styleless run over `"a"` and
the full style set, nothing is removed (so the map of removed entries is
empty), yet `extend_styles` with that empty map attaches a
present-but-empty style map — the original style-map content (absent) is
not restored. -/
theorem c7_styles_counterexample :
    extendStyles
        (removeStyles (fromStr (['a'])) ⟨true, true, true, true, true⟩)
        (StyleMap.restrict StyleMap.empty
          ⟨true, true, true, true, true⟩) ≠ fromStr (['a']) ∧
    (extendStyles
        (removeStyles (fromStr (['a'])) ⟨true, true, true, true, true⟩)
        (StyleMap.restrict StyleMap.empty
          ⟨true, true, true, true, true⟩)).styles = some StyleMap.empty ∧
    (fromStr (['a'])).styles = none := by
  refine ⟨?_, rfl, rfl⟩
  decide

/-- Witness for C7: restoring a run that carries a bold-with-no-payload
entry after removing the bold key. -/
theorem c7_styles_amended_witness :
    (⟨['a'], none, some ⟨none, none, some none, none, none⟩⟩ :
        DocString).styles = some ⟨none, none, some none, none, none⟩ ∧
    extendStyles
        (removeStyles ⟨['a'], none, some ⟨none, none, some none, none, none⟩⟩
          ⟨false, false, true, false, false⟩)
        (StyleMap.restrict ⟨none, none, some none, none, none⟩
          ⟨false, false, true, false, false⟩) =
      ⟨['a'], none, some ⟨none, none, some none, none, none⟩⟩ :=
  ⟨rfl,
    c7_styles_amended.2 ⟨['a'], none, some ⟨none, none, some none, none, none⟩⟩
      ⟨none, none, some none, none, none⟩
      ⟨false, false, true, false, false⟩ rfl⟩

/-- C8: the wire encoding of a run is its visible text as a bare string
when no styles are attached and the two-element sequence
`[text, styles]` when they are; decoding the encoding yields a run
content-equal to the original carrying an identical style map. -/
theorem c8_wire_roundtrip (r : DocString) (v : List Char) (w : WireValue)
    (h : asStr r = some v) (hw : serializeDoc r = some w) :
    w = (match r.styles with
         | none => WireValue.str v
         | some m => WireValue.seq v m) ∧
    asStr (deserializeDoc w) = some v ∧
    docEq (deserializeDoc w) r = some true ∧
    (deserializeDoc w).styles = r.styles := by
  rcases hst : r.styles with _ | m <;>
    simp only [serializeDoc, h, hst] at hw <;>
    cases hw
  · refine ⟨rfl, rfl, ?_, rfl⟩
    show docEq (fromStr v) r = some true
    rw [docEq_some (show asStr (fromStr v) = some v from rfl) h]
    simp
  · refine ⟨rfl, rfl, ?_, rfl⟩
    show docEq (fromStrStyled v m) r = some true
    rw [docEq_some (show asStr (fromStrStyled v m) = some v from rfl) h]
    simp

/-- Witness for C8: a styled run round-trips through the two-element wire
form. -/
theorem c8_wire_roundtrip_witness :
    asStr ⟨['a'], none, some ⟨none, none, some none, none, none⟩⟩ =
      some (['a']) ∧
    serializeDoc ⟨['a'], none, some ⟨none, none, some none, none, none⟩⟩ =
      some (WireValue.seq (['a']) ⟨none, none, some none, none, none⟩) ∧
    (WireValue.seq (['a']) ⟨none, none, some none, none, none⟩ =
        WireValue.seq (['a']) ⟨none, none, some none, none, none⟩ ∧
      asStr (deserializeDoc
        (WireValue.seq (['a']) ⟨none, none, some none, none, none⟩)) =
        some (['a']) ∧
      docEq (deserializeDoc
          (WireValue.seq (['a']) ⟨none, none, some none, none, none⟩))
        ⟨['a'], none, some ⟨none, none, some none, none, none⟩⟩ =
        some true ∧
      (deserializeDoc
          (WireValue.seq (['a']) ⟨none, none, some none, none, none⟩)).styles =
        (⟨['a'], none, some ⟨none, none, some none, none, none⟩⟩ :
          DocString).styles) :=
  ⟨by decide, by decide,
    c8_wire_roundtrip ⟨['a'], none, some ⟨none, none, some none, none, none⟩⟩
      (['a']) (WireValue.seq (['a']) ⟨none, none, some none, none, none⟩)
      (by decide) (by decide)⟩

/-- Concrete run for the splitter claims: two two-byte characters viewed
through the explicit byte range `0..4` (the right half of
`split_at("éé", 2)` has this shape for the left part). -/
def eeView : DocString := ⟨['é', 'é'], some (0, 4), none⟩

/-- The styleless run over the buffer of the reference test suite. -/
def welcomeRun : DocString :=
  fromStr (['W', 'e', 'l', 'c', 'o', 'm', 'e', '!'])

/-- Concrete run for the constructor claim: the middle two characters of a
three character buffer. -/
def abcView : DocString := ⟨['a', 'b', 'c'], some (1, 3), none⟩

/-- C3: for a run whose character length is defined, construction of the
cursor splitter fails exactly when the index reaches the character length
(in particular at exactly `char_len`), and on success it records the run's
current view range (or `0..char_len` when it has none) as the original
range, both handles as copies of the run, and the cursor at the index.
The failure at `char_len = 0` is the checked-arithmetic overflow of
`char_len - 1`. -/
theorem c3_construct_bounds (r : DocString) (n i : Nat)
    (h : charLen r = some n) :
    (dividedNew r i = none ↔ n ≤ i) ∧
    (i < n → dividedNew r i = some
      { originalRange :=
          match r.range with
          | some p => p
          | none => (0, n)
        leftString := r
        rightString := r
        index := i }) := by
  constructor
  · by_cases h0 : n = 0
    · subst h0
      simp [dividedNew, h]
    · by_cases h1 : n - 1 < i
      · simp only [dividedNew, h, if_neg h0, if_pos h1]
        exact ⟨fun _ => by omega, fun _ => trivial⟩
      · simp only [dividedNew, h, if_neg h0, if_neg h1]
        exact ⟨fun hx => Option.noConfusion hx, fun hx => absurd hx (by omega)⟩
  · intro hi
    have h0 : ¬(n = 0) := by omega
    have h1 : ¬(n - 1 < i) := by omega
    simp only [dividedNew, h, if_neg h0, if_neg h1]

/-- Witness for C3: constructing over a sub-range view of character length
2 succeeds at index 1 and records the view range `(1, 3)`. -/
theorem c3_construct_bounds_witness :
    charLen abcView = some 2 ∧
    ((dividedNew abcView 1 = none ↔ 2 ≤ 1) ∧
      (1 < 2 → dividedNew abcView 1 = some ⟨(1, 3), abcView, abcView, 1⟩)) :=
  ⟨by decide, c3_construct_bounds abcView 2 1 (by decide)⟩

/-- C4 (amended): `seek` fails exactly when the new cursor would be
negative or would exceed `original_range.len()` — the recorded range's
numeric length (`end - start`), which is a BYTE length whenever the run
had a view range, not the range's character length; otherwise it only
replaces the cursor. -/
theorem c4_seek_amended (d : DividedString) (delta : Int) :
    (seek d delta = none ↔
      ((d.index : Int) + delta < 0 ∨
        (rangeLen d.originalRange : Int) < (d.index : Int) + delta)) ∧
    (0 ≤ (d.index : Int) + delta →
      (d.index : Int) + delta ≤ (rangeLen d.originalRange : Int) →
      seek d delta =
        some { d with index := ((d.index : Int) + delta).toNat }) := by
  constructor
  · by_cases hneg : (d.index : Int) + delta < 0
    · simp only [seek, if_pos hneg]
      exact ⟨fun _ => Or.inl hneg, fun _ => trivial⟩
    · simp only [seek, if_neg hneg]
      by_cases hup :
          rangeLen d.originalRange < ((d.index : Int) + delta).toNat
      · simp only [if_pos hup]
        exact ⟨fun _ => Or.inr (by omega), fun _ => trivial⟩
      · simp only [if_neg hup]
        exact ⟨fun hx => Option.noConfusion hx,
          fun hx => absurd hx (by omega)⟩
  · intro h1 h2
    have hneg : ¬((d.index : Int) + delta < 0) := by omega
    have hup : ¬(rangeLen d.originalRange <
        ((d.index : Int) + delta).toNat) := by omega
    simp only [seek, if_neg hneg, if_neg hup]

/-- Counterexample to C4 as stated: over the view `0..4` of `"éé"` the
original range's character length is 2, so per the claim `seek(2)` from
cursor 1 (target cursor 3 > 2) must fail; the code compares against the
byte length 4 and succeeds. -/
theorem c4_seek_counterexample :
    dividedNew eeView 1 = some ⟨(0, 4), eeView, eeView, 1⟩ ∧
    charLen eeView = some 2 ∧
    (2 : Int) < (1 : Int) + 2 ∧
    seek ⟨(0, 4), eeView, eeView, 1⟩ 2 =
      some ⟨(0, 4), eeView, eeView, 3⟩ := by
  decide

/-- Witness for C4: a in-bounds seek on the same splitter. -/
theorem c4_seek_amended_witness :
    (0 : Int) ≤ (1 : Int) + 2 ∧
    (1 : Int) + 2 ≤ ((4 : Nat) : Int) ∧
    seek ⟨(0, 4), eeView, eeView, 1⟩ 2 =
      some ⟨(0, 4), eeView, eeView, 3⟩ :=
  ⟨by decide, by decide,
    (c4_seek_amended ⟨(0, 4), eeView, eeView, 1⟩ 2).2 (by decide)
      (by decide)⟩

/-- C2 (amended): `right()` returns no right part exactly when the cursor
has reached `original_range.len()` — the recorded range's numeric length
(a byte length whenever the run had a view range), not its character
length; otherwise it writes `[original_start, original_start + cursor)`
into the LEFT handle's range field (the same slot `left()` writes, whose
own recomputed range is `[original_start + cursor, original_end)`) and
returns the right handle, whose view range the call does not modify. -/
theorem c2_right_amended (d : DividedString) :
    ((dividedRight d).2 = none ↔ rangeLen d.originalRange ≤ d.index) ∧
    (rangeLen d.originalRange ≤ d.index → dividedRight d = (d, none)) ∧
    (d.index < rangeLen d.originalRange →
      dividedRight d = (updateRight d, some d.rightString) ∧
      (updateRight d).leftString.range =
        some (d.originalRange.1, d.originalRange.1 + d.index) ∧
      (updateLeft d).leftString.range =
        some (d.originalRange.1 + d.index, d.originalRange.2) ∧
      (updateRight d).rightString = d.rightString ∧
      (updateRight d).originalRange = d.originalRange ∧
      (updateRight d).index = d.index) := by
  refine ⟨?_, ?_, ?_⟩
  · by_cases hc : rangeLen d.originalRange ≤ d.index
    · simp only [dividedRight, if_pos hc]
      simp [hc]
    · simp only [dividedRight, if_neg hc]
      simp [hc]
  · intro hc
    simp only [dividedRight, if_pos hc]
  · intro hc
    have hc' : ¬(rangeLen d.originalRange ≤ d.index) := by omega
    obtain ⟨orig, ls, rs, idx⟩ := d
    exact ⟨by simp only [dividedRight, if_neg hc'];rfl, rfl, rfl, rfl, rfl, rfl⟩

/-- Counterexample to C2 as stated: on the splitter over the `0..4` view
of `"éé"` (reached by construction at 1 and `seek(1)`) the cursor 2 equals
the original range's character length 2, so per the claim `right()` must
return no right part; the code compares against the byte length 4 and
returns a part. -/
theorem c2_right_counterexample :
    (dividedNew eeView 1).bind (fun d => seek d 1) =
      some ⟨(0, 4), eeView, eeView, 2⟩ ∧
    charLen eeView = some 2 ∧
    (dividedRight ⟨(0, 4), eeView, eeView, 2⟩).2 = some eeView := by
  decide

/-- Witness for C2: the same splitter at cursor 1 returns a right part and
writes the recomputed range into the left handle's slot. -/
theorem c2_right_amended_witness :
    1 < rangeLen ((0, 4) : Nat × Nat) ∧
    (dividedRight ⟨(0, 4), eeView, eeView, 1⟩ =
        (updateRight ⟨(0, 4), eeView, eeView, 1⟩, some eeView) ∧
      (updateRight ⟨(0, 4), eeView, eeView, 1⟩).leftString.range =
        some (0, 1) ∧
      (updateLeft ⟨(0, 4), eeView, eeView, 1⟩).leftString.range =
        some (1, 4) ∧
      (updateRight ⟨(0, 4), eeView, eeView, 1⟩).rightString = eeView ∧
      (updateRight ⟨(0, 4), eeView, eeView, 1⟩).originalRange = (0, 4) ∧
      (updateRight ⟨(0, 4), eeView, eeView, 1⟩).index = 1) :=
  ⟨by decide, (c2_right_amended ⟨(0, 4), eeView, eeView, 1⟩).2.2 (by decide)⟩

/-- C5: `left()` returns no left part exactly when the cursor is 0;
otherwise it recomputes the left view's range as
`[original_start + cursor, original_end)` and returns that view; and the
reference scenario: `"Welcome!"`, splitter at 1, `seek(5)`, gives a left
view with visible text `"e!"`. -/
theorem c5_left_spec (d : DividedString) :
    ((dividedLeft d).2 = none ↔ d.index = 0) ∧
    (d.index ≠ 0 →
      dividedLeft d = (updateLeft d, some (updateLeft d).leftString) ∧
      (updateLeft d).leftString.range =
        some (d.originalRange.1 + d.index, d.originalRange.2)) ∧
    (((dividedNew welcomeRun 1).bind (fun d0 => seek d0 5)).bind
        (fun d0 => (dividedLeft d0).2)).bind asStr = some (['e', '!']) := by
  refine ⟨?_, ?_, by decide⟩
  · by_cases h0 : d.index = 0
    · simp only [dividedLeft, if_pos h0]
      simp [h0]
    · simp only [dividedLeft, if_neg h0]
      simp [h0]
  · intro h0
    obtain ⟨orig, ls, rs, idx⟩ := d
    exact ⟨by simp only [dividedLeft, if_neg h0], rfl⟩

/-- Witness for C5: the scenario splitter at cursor 6 over `(0, 8)`. -/
theorem c5_left_spec_witness :
    (6 : Nat) ≠ 0 ∧
    (dividedLeft ⟨(0, 8), welcomeRun, welcomeRun, 6⟩ =
        (updateLeft ⟨(0, 8), welcomeRun, welcomeRun, 6⟩,
          some (updateLeft ⟨(0, 8), welcomeRun, welcomeRun, 6⟩).leftString) ∧
      (updateLeft ⟨(0, 8), welcomeRun, welcomeRun, 6⟩).leftString.range =
        some (6, 8)) :=
  ⟨by decide,
    (c5_left_spec ⟨(0, 8), welcomeRun, welcomeRun, 6⟩).2.1 (by decide)⟩

theorem utf8Len_take_le (l : List Char) (k : Nat) :
    utf8Len (l.take k) ≤ utf8Len l := by
  conv_rhs => rw [← List.take_append_drop k l]
  rw [utf8Len_append]
  omega

theorem utf8Len_take_pos {q : List Char} {m : Nat}
    (hq : 0 < utf8Len q) (hm : 1 ≤ m) : 0 < utf8Len (q.take m) := by
  cases q with
  | nil => simp [utf8Len_nil] at hq
  | cons c rest =>
    cases m with
    | zero => omega
    | succ m0 =>
      rw [List.take_succ_cons, utf8Len_cons]
      have := Char.utf8Size_pos c
      omega

/-- C9: for a run with no view range the splitter records `0..char_len` —
a CHARACTER count — as the original range, and the later range arithmetic
treats its endpoints as byte offsets: seeking the cursor to the recorded
length `n` and destructing yields a left view whose byte range is
`0..n` even though the buffer holds `utf8Len buf > n` bytes whenever some
character is multi-byte (the right handle's range is never written at all
and stays `none`). -/
theorem c9_char_count_range (r : DocString) (n i : Nat)
    (d d' : DividedString)
    (hr : r.range = none) (hn : charLen r = some n)
    (hd : dividedNew r i = some d)
    (hs : seek d ((n : Int) - (i : Int)) = some d')
    (hmb : ∃ c ∈ r.buf, 1 < c.utf8Size) :
    d.originalRange = (0, n) ∧
    destruct d' = ({ r with range := some (0, n) }, r) ∧
    n < utf8Len r.buf := by
  obtain ⟨buf, rg, st⟩ := r
  simp only at hr
  subst hr
  have hnlen : n = buf.length := by
    rw [charLen] at hn
    simp only [asStr, Option.map_some'] at hn
    exact (Option.some.inj hn).symm
  simp only [dividedNew, charLen, asStr, Option.map_some'] at hd
  by_cases h0 : buf.length = 0
  · rw [if_pos h0] at hd
    exact Option.noConfusion hd
  · rw [if_neg h0] at hd
    by_cases h1 : buf.length - 1 < i
    · rw [if_pos h1] at hd
      exact Option.noConfusion hd
    · rw [if_neg h1] at hd
      rw [Option.some.injEq] at hd
      subst hd
      simp only [seek, rangeLen] at hs
      have hc1 : ¬((i : Int) + ((n : Int) - (i : Int)) < 0) := by omega
      rw [if_neg hc1] at hs
      have htn : ((i : Int) + ((n : Int) - (i : Int))).toNat = n := by omega
      rw [htn] at hs
      have hc2 : ¬(buf.length - 0 < n) := by omega
      rw [if_neg hc2] at hs
      rw [Option.some.injEq] at hs
      subst hs
      refine ⟨by simp [hnlen], ?_, ?_⟩
      · simp only [destruct, updateLeft, updateRight, Nat.zero_add]
      · rw [hnlen]
        exact length_lt_utf8Len hmb

/-- Witness for C9: the rangeless run over two two-byte characters;
seeking the cursor to 2 and destructing yields a left view with byte
range `0..2` while the buffer is 4 bytes long. -/
theorem c9_char_count_range_witness :
    (⟨['é', 'é'], none, none⟩ : DocString).range = none ∧
    charLen ⟨['é', 'é'], none, none⟩ = some 2 ∧
    dividedNew ⟨['é', 'é'], none, none⟩ 1 =
      some ⟨(0, 2), ⟨['é', 'é'], none, none⟩, ⟨['é', 'é'], none, none⟩, 1⟩ ∧
    seek ⟨(0, 2), ⟨['é', 'é'], none, none⟩, ⟨['é', 'é'], none, none⟩, 1⟩
        ((2 : Int) - (1 : Int)) =
      some ⟨(0, 2), ⟨['é', 'é'], none, none⟩, ⟨['é', 'é'], none, none⟩, 2⟩ ∧
    ((⟨(0, 2), ⟨['é', 'é'], none, none⟩, ⟨['é', 'é'], none, none⟩,
        1⟩ : DividedString).originalRange = (0, 2) ∧
      destruct ⟨(0, 2), ⟨['é', 'é'], none, none⟩,
          ⟨['é', 'é'], none, none⟩, 2⟩ =
        (⟨['é', 'é'], some (0, 2), none⟩, ⟨['é', 'é'], none, none⟩) ∧
      2 < utf8Len (['é', 'é'])) :=
  ⟨rfl, by decide, by decide, by decide,
    c9_char_count_range ⟨['é', 'é'], none, none⟩ 2 1
      ⟨(0, 2), ⟨['é', 'é'], none, none⟩, ⟨['é', 'é'], none, none⟩, 1⟩
      ⟨(0, 2), ⟨['é', 'é'], none, none⟩, ⟨['é', 'é'], none, none⟩, 2⟩
      rfl (by decide) (by decide) (by decide) (by decide)⟩

/-- C10: `split_at` checks no bound on its character index: for every
well-formed sub-range view and every index `k` beyond the view's character
length it still returns a pair; the code-point scan runs from the view
start over the REST OF THE WHOLE BUFFER, saturating at the buffer's end,
so the left run's range ends at or past the view's end (strictly past it
whenever bytes exist between the view end and the buffer end), never past
the buffer's byte length, and the right run's range keeps the old view end
and so can have start greater than end. -/
theorem c10_split_at_unchecked (buf t v : List Char) (s e k : Nat)
    (st : Option StyleMap)
    (hv : asStr ⟨buf, some (s, e), st⟩ = some v)
    (ht : dropBytes buf s = some t)
    (hk : v.length < k) :
    splitAt ⟨buf, some (s, e), st⟩ k =
      some (⟨buf, some (s, s + utf8Len (t.take k)), st⟩,
            ⟨buf, some (s + utf8Len (t.take k), e), st⟩) ∧
    e ≤ s + utf8Len (t.take k) ∧
    s + utf8Len (t.take k) ≤ utf8Len buf ∧
    (e - s < utf8Len t → e < s + utf8Len (t.take k)) := by
  obtain ⟨t', hd', ht', hse⟩ := asStr_parts hv
  have hd2 : dropBytes buf s = some t' := hd'
  have htt : t' = t := Option.some.inj (hd2.symm.trans ht)
  rw [htt] at ht'
  have ht2 : takeBytes t (e - s) = some v := ht'
  obtain ⟨⟨q, hq⟩, hvlen⟩ := takeBytes_some ht2
  obtain ⟨p, hp, hplen⟩ := dropBytes_some ht
  have hse' : s ≤ e := hse
  have htake : t.take k = v ++ q.take (k - v.length) := by
    rw [hq, List.take_append_eq_append_take,
      List.take_of_length_le (Nat.le_of_lt hk)]
  have hlow : e ≤ s + utf8Len (t.take k) := by
    rw [htake, utf8Len_append]
    omega
  refine ⟨splitAt_eq ht k, hlow, ?_, ?_⟩
  · have hbuflen : utf8Len buf = s + utf8Len t := by
      rw [hp, utf8Len_append, hplen]
    have := utf8Len_take_le t k
    omega
  · intro hrest
    have hqpos : 0 < utf8Len q := by
      rw [hq, utf8Len_append] at hrest
      omega
    have := utf8Len_take_pos hqpos (m := k - v.length) (by omega)
    rw [htake, utf8Len_append]
    omega

/-- Witness for C10: the view `0..2` of `"abcd"` split at character index
3 produces a left run ranging to byte 3 (past the view end 2) and a right
run with the inverted range `(3, 2)`. -/
theorem c10_split_at_unchecked_witness :
    asStr ⟨['a', 'b', 'c', 'd'], some (0, 2), none⟩ = some (['a', 'b']) ∧
    dropBytes (['a', 'b', 'c', 'd']) 0 = some (['a', 'b', 'c', 'd']) ∧
    (['a', 'b'] : List Char).length < 3 ∧
    (splitAt ⟨['a', 'b', 'c', 'd'], some (0, 2), none⟩ 3 =
        some (⟨['a', 'b', 'c', 'd'], some (0, 3), none⟩,
              ⟨['a', 'b', 'c', 'd'], some (3, 2), none⟩) ∧
      2 ≤ 0 + utf8Len (List.take 3 (['a', 'b', 'c', 'd'])) ∧
      0 + utf8Len (List.take 3 (['a', 'b', 'c', 'd'])) ≤
        utf8Len (['a', 'b', 'c', 'd']) ∧
      (2 - 0 < utf8Len (['a', 'b', 'c', 'd']) →
        2 < 0 + utf8Len (List.take 3 (['a', 'b', 'c', 'd'])))) :=
  ⟨by decide, by decide, by decide,
    c10_split_at_unchecked (['a', 'b', 'c', 'd']) (['a', 'b', 'c', 'd'])
      (['a', 'b']) 0 2 3 none (by decide) (by decide) (by decide)⟩

end EditText
